import Mathlib

/-!
Verification development for the `cach` in-process cache library.

This file gives a shallow embedding, in Lean 4, of the parts of the
repository that the specification's claims are about, and proves (or
refutes) each claim against that embedding.  Every definition mirrors the
Rust source file it names; machine integers are modelled as `Nat` with
explicit wrap-around where the source depends on it, `Instant` is modelled
as a `Nat` count of nanoseconds, and Rust panics (`assert!`, `unreachable!`,
`expect`) are modelled by an explicit `PanicOr` result.  A few auxiliary
types referenced by the source but absent from it (the `Generation` and
`Index` types of `evict/list.rs`, and external collaborators such as the
hash table and hasher) are modelled from the specification and marked as
such in their doc comments.
-/

namespace Cach

/-- Result of a Rust computation that can panic (`assert!`, `assert_eq!`,
`unreachable!`, out-of-bounds indexing, `expect`). -/
inductive PanicOr (α : Type) where
  | panic
  | ok (val : α)
  deriving DecidableEq, Repr

/-- Modelled from the spec: the `Generation` type used by `evict/list.rs`
is absent from the source tree; the spec describes generations as non-zero
counters that wrap to the minimum non-zero generation on overflow, and the
sibling `evict/index.rs` uses `NonZero<u32>` with `checked_add(1).unwrap_or(START_GEN)`.
We model a generation as a `Nat` in `[1, 2^32 - 1]`. -/
def genMax : Nat := 2 ^ 32 - 1

/-- Modelled from the spec: `Generation::initial()` (the minimum non-zero
generation, `START_GEN` in `evict/index.rs`). -/
def genInitial : Nat := 1

/-- Modelled from the spec: `Generation::increment_mut` /
`gen.checked_add(1).unwrap_or(START_GEN)` — increment, wrapping back to the
minimum non-zero generation on overflow. -/
def genIncrement (g : Nat) : Nat := if g = genMax then genInitial else g + 1

/-- Modelled from the spec: `Index::MAX` for the slab index type of
`evict/list.rs` (absent from the source); `evict/index.rs` uses `u32`. -/
def indexMax : Nat := 2 ^ 32 - 1

/-- The key type of `evict/list.rs` and `evict/index.rs`: a slab index
paired with the generation it was issued under (`Key { index/offset, gen }`). -/
structure LKey where
  index : Nat
  gen : Nat
  deriving DecidableEq, Repr

/-- `NodeState<T>` from `evict/list.rs` (also the shape of the one in
`evict/index.rs`, whose atomic prev/next indices are only accessed through
`get`/`set` under `&mut self` on the paths embedded here). -/
inductive LNodeState (α : Type) where
  | occupied (value : α) (prev : Option Nat) (next : Option Nat)
  | vacant (nextFree : Option LKey)
  deriving DecidableEq, Repr

/-- `Node<T>` from `evict/list.rs`. -/
structure LNode (α : Type) where
  state : LNodeState α
  gen : Nat
  deriving DecidableEq, Repr

/-- `List<T>` from `evict/list.rs`: a doubly-linked list in a slab of
generational slots.  `cap` models `self.nodes.capacity()` of the backing
`Vec` (its requested capacity; `Vec` guarantees the real capacity is at
least `max` of the request and the length). -/
structure ListRs (α : Type) where
  nodes : List (LNode α)
  len : Nat
  head : Option Nat
  tail : Option Nat
  nextFree : Option LKey
  cap : Nat
  deriving DecidableEq, Repr

namespace ListRs

/-- `List::with_capacity` (the source also asserts `capacity > 0` and
`capacity <= Index::MAX`, which all uses below satisfy). -/
def withCapacity (capacity : Nat) : ListRs α :=
  { nodes := [], len := 0, head := none, tail := none, nextFree := none, cap := capacity }

/-- `List::len`. -/
def length (l : ListRs α) : Nat := l.len

/-- `List::capacity` = `self.nodes.capacity()`; modelled as the `Vec`
guarantee `max requested-capacity length`. -/
def capacity (l : ListRs α) : Nat := max l.cap l.nodes.length

/-- `List::push_tail_with_key`.  Returns the reference to the pushed value
together with the updated list.  Mirrors the source exactly: the new node is
built with `prev = None, next = old tail`, and the list's `len`, `head` and
`tail` fields are not written by this function. -/
def pushTailWithKey (l : ListRs α) (value : LKey → α) : PanicOr (α × ListRs α) :=
  let tl := l.tail
  let nodeState := fun v => LNodeState.occupied v none tl
  let pushed : PanicOr (ListRs α) :=
    match l.nextFree with
    | none =>
        -- assert!(self.nodes.len() < Index::MAX.into(), "out of capacity")
        if l.nodes.length ≥ indexMax then .panic else
        let gen := genInitial
        let key : LKey := { index := l.nodes.length, gen := gen }
        let st := nodeState (value key)
        .ok { l with nodes := l.nodes ++ [{ state := st, gen := gen }] }
    | some key =>
        match l.nodes.get? key.index with
        | none => .panic -- self.nodes[key.index] out of bounds
        | some node =>
          if node.gen ≠ key.gen then .panic else -- assert_eq!(key.gen, node.gen)
          match node.state with
          | .occupied _ _ _ => .panic -- unreachable!()
          | .vacant nextFree =>
            let gen := genIncrement node.gen
            let st := nodeState (value key)
            .ok { l with
                  nodes := l.nodes.set key.index { state := st, gen := gen },
                  nextFree := nextFree }
  match pushed with
  | .panic => .panic
  | .ok l' =>
    -- final re-borrow: `let NodeState::Occupied { value, .. } = ... else unreachable!()`
    let idx := match l.nextFree with
               | none => l.nodes.length
               | some key => key.index
    match l'.nodes.get? idx with
    | some { state := .occupied v _ _, .. } => .ok (v, l')
    | _ => .panic

/-- The first half of `List::prune_link`: patch the `prev` field of the
`next` neighbour, or `head` when there is none. -/
def setPrevOfNext (l : ListRs α) (next : Option Nat) (prev : Option Nat) : PanicOr (ListRs α) :=
  match next with
  | some n =>
    match l.nodes.get? n with
    | none => .panic -- self.nodes[next] out of bounds
    | some node =>
      match node.state with
      | .occupied v _ nx =>
        .ok { l with nodes := l.nodes.set n { state := .occupied v prev nx, gen := node.gen } }
      | .vacant _ => .panic -- unreachable!()
  | none => .ok { l with head := prev }

/-- The second half of `List::prune_link`: patch the `next` field of the
`prev` neighbour, or `tail` when there is none. -/
def setNextOfPrev (l : ListRs α) (prev : Option Nat) (next : Option Nat) : PanicOr (ListRs α) :=
  match prev with
  | some p =>
    match l.nodes.get? p with
    | none => .panic -- self.nodes[prev] out of bounds
    | some node =>
      match node.state with
      | .occupied v pv _ =>
        .ok { l with nodes := l.nodes.set p { state := .occupied v pv next, gen := node.gen } }
      | .vacant _ => .panic -- unreachable!()
  | none => .ok { l with tail := next }

/-- `List::prune_link`. -/
def pruneLink (l : ListRs α) (prev next : Option Nat) : PanicOr (ListRs α) :=
  match l.setPrevOfNext next prev with
  | .panic => .panic
  | .ok l1 => l1.setNextOfPrev prev next

/-- `List::remove`. -/
def remove (l : ListRs α) (key : LKey) : PanicOr (Option α × ListRs α) :=
  match l.nodes.get? key.index with
  | none => .ok (none, l) -- self.nodes.get_mut(..)? returned None
  | some node =>
    if node.gen ≠ key.gen then .ok (none, l)
    else match node.state with
      | .vacant _ => .panic -- let NodeState::Occupied .. else unreachable!()
      | .occupied value prev next =>
        let newGen := genIncrement node.gen
        let l1 : ListRs α :=
          { l with
            nodes := l.nodes.set key.index { state := .vacant l.nextFree, gen := newGen },
            nextFree := some { index := key.index, gen := newGen } }
        match l1.pruneLink prev next with
        | .panic => .panic
        | .ok l2 => .ok (some value, l2)

/-- `List::pop_head`. -/
def popHead (l : ListRs α) : PanicOr (Option α × ListRs α) :=
  match l.head with
  | none => .ok (none, l)
  | some index =>
    match l.nodes.get? index with
    | none => .panic -- self.nodes[index] out of bounds
    | some node => l.remove { index := index, gen := node.gen }

/-- `List::push_tail_with_key_and_pop_if_full`. -/
def pushTailWithKeyAndPopIfFull (l : ListRs α) (value : LKey → α) :
    PanicOr ((α × Option α) × ListRs α) :=
  match (if l.length = l.capacity then l.popHead else .ok (none, l)) with
  | .panic => .panic
  | .ok (removed, l1) =>
    match l1.pushTailWithKey value with
    | .panic => .panic
    | .ok (pushed, l2) => .ok ((pushed, removed), l2)

end ListRs

/-- `IndexList<T>` from `evict/index.rs`.  Its `head`/`tail` are
`AtomicIndex`es, read and written through `get`/`set` under `&mut self` on
every path embedded here, so they are modelled as plain `Option Nat` (the
`DELETED` tag bit is only ever set by the unfinished lock-free
`move_to_tail`, which is not embedded). -/
structure IndexListRs (α : Type) where
  nodes : List (LNode α)
  head : Option Nat
  tail : Option Nat
  len : Nat
  nextFree : Option LKey
  deriving DecidableEq, Repr

namespace IndexListRs

/-- First half of `IndexList::prune_link`. -/
def setPrevOfNext (l : IndexListRs α) (next : Option Nat) (prev : Option Nat) :
    PanicOr (IndexListRs α) :=
  match next with
  | some n =>
    match l.nodes.get? n with
    | none => .panic
    | some node =>
      match node.state with
      | .occupied v _ nx =>
        .ok { l with nodes := l.nodes.set n { state := .occupied v prev nx, gen := node.gen } }
      | .vacant _ => .panic -- unreachable!()
  | none => .ok { l with head := prev }

/-- Second half of `IndexList::prune_link`. -/
def setNextOfPrev (l : IndexListRs α) (prev : Option Nat) (next : Option Nat) :
    PanicOr (IndexListRs α) :=
  match prev with
  | some p =>
    match l.nodes.get? p with
    | none => .panic
    | some node =>
      match node.state with
      | .occupied v pv _ =>
        .ok { l with nodes := l.nodes.set p { state := .occupied v pv next, gen := node.gen } }
      | .vacant _ => .panic -- unreachable!()
  | none => .ok { l with tail := next }

/-- `IndexList::prune_link`. -/
def pruneLink (l : IndexListRs α) (prev next : Option Nat) : PanicOr (IndexListRs α) :=
  match l.setPrevOfNext next prev with
  | .panic => .panic
  | .ok l1 => l1.setNextOfPrev prev next

/-- `IndexList::remove`.  Unlike `List::remove` in `evict/list.rs`, this
version indexes the slab unchecked (`&mut self.nodes[key.offset as usize]`)
and `assert_eq!`s the generation, so an out-of-range or stale key panics
instead of returning `None`. -/
def remove (l : IndexListRs α) (key : LKey) : PanicOr (Option α × IndexListRs α) :=
  match l.nodes.get? key.index with
  | none => .panic -- &mut self.nodes[key.offset] out of bounds
  | some node =>
    if node.gen ≠ key.gen then .panic -- assert_eq!(node.gen, key.gen)
    else match node.state with
      | .vacant _ => .panic -- let NodeState::Occupied .. else unreachable!()
      | .occupied value prev next =>
        let newGen := genIncrement node.gen
        let l1 : IndexListRs α :=
          { l with
            nodes := l.nodes.set key.index { state := .vacant l.nextFree, gen := newGen },
            nextFree := some { index := key.index, gen := newGen } }
        match l1.pruneLink prev next with
        | .panic => .panic
        | .ok l2 => .ok (some value, l2)

end IndexListRs

/-- `EvictLeastRecentlyInserted::insert` from `evict/write.rs`: delegates to
`List::push_tail_with_key_and_pop_if_full`; the returned iterator of evicted
pointers is `removed.into_iter()`, modelled as a list. -/
def evictLriInsert (queue : ListRs P) (construct : LKey → P) :
    PanicOr ((P × List P) × ListRs P) :=
  match queue.pushTailWithKeyAndPopIfFull construct with
  | .panic => .panic
  | .ok ((value, removed), q) => .ok ((value, removed.toList), q)

/-- Driver for the LRI insertion sequence: insert the given payloads (each
standing for a distinct key) in order into one `EvictLeastRecentlyInserted`
queue of the given capacity, collecting every evicted payload in order. -/
def evictLriInsertAll (cap : Nat) (payloads : List Nat) : PanicOr (List Nat × ListRs Nat) :=
  payloads.foldl
    (fun acc payload =>
      match acc with
      | .panic => .panic
      | .ok (evicted, q) =>
        match evictLriInsert q (fun _ => payload) with
        | .panic => .panic
        | .ok ((_, removed), q') => .ok (evicted ++ removed, q'))
    (.ok ([], ListRs.withCapacity cap))

/-- The evicted-key sequence of `evictLriInsertAll`. -/
def evictLriEvicted (cap : Nat) (payloads : List Nat) : PanicOr (List Nat) :=
  match evictLriInsertAll cap payloads with
  | .panic => .panic
  | .ok (evicted, _) => .ok evicted

/-- `Bag<T>` from `evict/bag.rs`.  An element is a payload paired with its
embedded back-index `Key` (an `AtomicUsize` written only under `&mut self`,
so modelled as a plain `Nat`); `deref` in the source retrieves exactly this
embedded key. -/
structure Bag (α : Type) where
  values : List (α × Nat)
  deriving DecidableEq, Repr

namespace Bag

/-- `Bag::len`. -/
def length (b : Bag α) : Nat := b.values.length

/-- `Bag::insert_with_key`: push `construct(Key(len))` at the back. -/
def insertWithKey (b : Bag α) (construct : Nat → α × Nat) : Bag α :=
  { values := b.values ++ [construct b.values.length] }

/-- `Bag::do_remove`: `swap_remove(index)` and then, if a (moved) element now
sits at `index`, store `index` into its embedded key.  `Vec::swap_remove`
panics when `index` is out of bounds, hence the `PanicOr`. -/
def doRemove (b : Bag α) (index : Nat) : PanicOr ((α × Nat) × Bag α) :=
  match b.values.get? index with
  | none => .panic -- Vec::swap_remove panics
  | some removed =>
    match b.values.getLast? with
    | none => .panic -- unreachable: get? succeeded, so the list is non-empty
    | some last =>
      let values1 := b.values.dropLast.set index last
      let values2 :=
        match values1.get? index with
        | some moved => values1.set index (moved.1, index)
        | none => values1
      .ok (removed, { values := values2 })

/-- `Bag::remove_by_key`: load the index from the key, then `do_remove`. -/
def removeByKey (b : Bag α) (key : Nat) : PanicOr ((α × Nat) × Bag α) :=
  b.doRemove key

/-- `Bag::remove_by_value`: load the index from the element's embedded key,
then `do_remove`. -/
def removeByValue (b : Bag α) (value : α × Nat) : PanicOr ((α × Nat) × Bag α) :=
  b.doRemove value.2

/-- `Bag::pop`: pick a random slot (the caller's `rand` result is passed in
as `randIndex`), assert it is in range, and `do_remove` it. -/
def pop (b : Bag α) (randIndex : Nat) : PanicOr (Option ((α × Nat) × Bag α)) :=
  if b.length = 0 then .ok none
  else if randIndex < b.length then
    match b.doRemove randIndex with
    | .panic => .panic
    | .ok r => .ok (some r)
  else .panic -- assert!(index < self.len())

/-- The `Bag` back-index invariant: every element stored at position `i`
has `i` in its embedded key. -/
def wf (b : Bag α) : Bool :=
  (List.range b.values.length).all fun i =>
    match b.values.get? i with
    | some e => e.2 = i
    | none => false

/-- The `Bag` back-index invariant as a proposition. -/
def WfP (b : Bag α) : Prop :=
  ∀ i e, b.values.get? i = some e → e.2 = i

/-- One operation of the `Bag` API, for stating the invariant over whole
operation sequences.  `insert x` inserts with the canonical constructor
that embeds the issued key next to the payload; the removal operations all
carry the slot index that the source loads out of the relevant `Key`. -/
inductive BagOp (α : Type) where
  | insert (payload : α)
  | removeKey (index : Nat)
  | removeValue (value : α × Nat)
  | pop (randIndex : Nat)
  deriving DecidableEq, Repr

/-- Apply one `BagOp` (`none` = the source panicked). -/
def step (b : Bag α) : BagOp α → Option (Bag α)
  | .insert payload => some (b.insertWithKey (fun k => (payload, k)))
  | .removeKey index =>
    match b.removeByKey index with
    | .panic => none
    | .ok (_, b') => some b'
  | .removeValue value =>
    match b.removeByValue value with
    | .panic => none
    | .ok (_, b') => some b'
  | .pop randIndex =>
    match b.pop randIndex with
    | .panic => none
    | .ok none => some b
    | .ok (some (_, b')) => some b'

/-- Apply a sequence of `BagOp`s. -/
def run (b : Bag α) : List (BagOp α) → Option (Bag α)
  | [] => some b
  | op :: ops =>
    match b.step op with
    | none => none
    | some b' => run b' ops

end Bag

/-- `ReadResult` from `layer.rs`. -/
inductive ReadResult where
  | Retain
  | Remove
  deriving DecidableEq, Repr

/-- `ReadLockBehavior` from `layer.rs`. -/
inductive ReadLockBehavior where
  | ReadLockOnly
  | RequireWriteLock
  deriving DecidableEq, Repr

/-- `ReadLockBehavior::and` from `layer.rs`. -/
def ReadLockBehavior.and : ReadLockBehavior → ReadLockBehavior → ReadLockBehavior
  | .RequireWriteLock, _ => .RequireWriteLock
  | _, .RequireWriteLock => .RequireWriteLock
  | _, _ => .ReadLockOnly

/-- The `Write` visitor trait of `layer.rs`, sequentialized: `remove`
threads the visitor's environment (for the store's visitor this is the
shard's hash table), and `insert` finishes the visitor, producing the new
pointer.  `target` is pure and is not needed by the embedded paths. -/
structure Writer (P V E : Type) where
  remove : E → P → E
  insert : E → V → P × E

/-- A sequentialized implementation of the per-shard `Shard` trait of
`layer.rs` (the operations `write` and `remove`; `read`/`iter_read` are
modelled separately).  `write` is polymorphic in the visitor's environment,
exactly as the Rust method is generic over `impl Write`. -/
structure ShardI (P V σ : Type) where
  write : {E : Type} → σ → Writer P V E → E → P × σ × E
  remove : σ → P → σ

/-- `AndThenShard::write` from `layer.rs`: run the second layer's `write`
with a `WriteB` visitor that (a) forwards `remove` to the first layer and
to the inner visitor, and (b) on `insert` runs the first layer's `write`
with a `WriteA` visitor that records the pointers the first layer removes
in `removed_by_a` besides forwarding them to the inner visitor; afterwards
replay `removed_by_a` against the second layer's `remove`. -/
def andThenWrite (A : ShardI P VA σA) (B : ShardI P VB σB) {E : Type}
    (sa : σA) (sb : σB) (w : Writer P (VA × VB) E) (env : E) : P × (σA × σB) × E :=
  let writerB : Writer P VB (σA × List P × E) :=
    { remove := fun e p => (A.remove e.1 p, e.2.1, w.remove e.2.2 p),
      insert := fun e vb =>
        let writerA : Writer P VA (List P × E) :=
          { remove := fun e1 p => (e1.1 ++ [p], w.remove e1.2 p),
            insert := fun e1 va =>
              let r := w.insert e1.2 (va, vb)
              (r.1, (e1.1, r.2)) }
        let r := A.write e.1 writerA (e.2.1, e.2.2)
        (r.1, (r.2.1, r.2.2.1, r.2.2.2)) }
  let r := B.write sb writerB (sa, [], env)
  let sb2 := r.2.2.2.1.foldl B.remove r.2.1
  (r.1, (r.2.2.1, sb2), r.2.2.2.2)

/-- `AndThenShard::read` from `layer.rs`, sequentialized: the guard
projections become state threading.  The reads of the two composed layers
are passed in as state transformers. -/
def andThenRead (readA : σA → P → ReadResult × σA) (readB : σB → P → ReadResult × σB)
    (sa : σA) (sb : σB) (p : P) : ReadResult × (σA × σB) :=
  let ra := readA sa p
  match ra.1 with
  | .Remove => (ra.1, (ra.2, sb))
  | .Retain =>
    let rb := readB sb p
    (rb.1, (ra.2, rb.2))

/-- `AndThenShard::iter_read` from `layer.rs`: textually the same
composition as `read`, but over the layers' `iter_read` implementations. -/
def andThenIterRead (iterReadA : σA → P → ReadResult × σA)
    (iterReadB : σB → P → ReadResult × σB)
    (sa : σA) (sb : σB) (p : P) : ReadResult × (σA × σB) :=
  let ra := iterReadA sa p
  match ra.1 with
  | .Remove => (ra.1, (ra.2, sb))
  | .Retain =>
    let rb := iterReadB sb p
    (rb.1, (ra.2, rb.2))

/-- Modelled from the spec: a write-order (LRI) eviction layer for the
`layer.rs` shard protocol.  No eviction layer in the source tree implements
this protocol (the in-tree eviction layers target the sibling `Evict`
trait), so this shard follows the spec's description of the LRI layer:
"`write`: if `len == capacity`, pop head (evict); push tail", with the
evicted pointer reported through the write visitor's `remove`, and
"`remove(P)`: remove by key". -/
structure SpecLriShard (P : Type) where
  q : List P
  cap : Nat
  deriving DecidableEq, Repr

/-- Modelled from the spec: the `ShardI` implementation of `SpecLriShard`. -/
def specLriImpl (P : Type) [DecidableEq P] : ShardI P Unit (SpecLriShard P) :=
  { write := fun {E} s w env =>
      let step1 : List P × E :=
        if s.q.length = s.cap then
          match s.q with
          | [] => (s.q, env)
          | victim :: rest => (rest, w.remove env victim)
        else (s.q, env)
      let r := w.insert step1.2 ()
      (r.1, { q := step1.1 ++ [r.1], cap := s.cap }, r.2)
    remove := fun s p => { q := s.q.filter (fun x => x ≠ p), cap := s.cap } }

/-- The environment of the store-level write visitor of `sync.rs`: the
shard's table of pointers, plus a flag recording whether the
`.expect("layer shard and map out of sync")` in `Write::remove` panicked. -/
structure MapEnv where
  map : List Nat
  panicked : Bool
  deriving DecidableEq, Repr

/-- The store-level `Write` visitor of `sync.rs` (lines 545–577):
`remove` unlinks the pointer from the shard's table by `Arc` identity
(`expect`ing it to be present), and `insert` constructs the new pointer
(`Pointer(Arc::new(..))`, modelled by a fresh identifier; the table
insertion is done by the caller afterwards). -/
def mapWriter (newId : Nat) : Writer Nat (Unit × Unit) MapEnv :=
  { remove := fun e p =>
      if p ∈ e.map then { e with map := e.map.erase p }
      else { e with panicked := true },
    insert := fun e _ => (newId, e) }

/-- A composed write through `AndThenShard::write` with two spec-modelled
LRI layers over the store-level visitor of `sync.rs`. -/
def andThenLriWrite (sa sb : SpecLriShard Nat) (map : List Nat) (newId : Nat) :
    Nat × (SpecLriShard Nat × SpecLriShard Nat) × MapEnv :=
  andThenWrite (specLriImpl Nat) (specLriImpl Nat) sa sb (mapWriter newId)
    { map := map, panicked := false }

/-- `EvictApproximate::touch` from `evict/approx.rs`, sequentialized: in a
single-threaded execution the `compare_exchange` from the value just loaded
always succeeds.  `last` is the element's `AtomicInstant` (nanoseconds),
`now` is `clock.now()`; `now.checked_duration_since(last).unwrap_or_default()`
is truncated `Nat` subtraction.  Returns whether the touch was forwarded to
the inner layer, the new timestamp, and the inner queue after a forwarded
`inner.touch`. -/
def approxTouch (innerTouch : Q → Q) (window last now : Nat) (q : Q) : Bool × Nat × Q :=
  let sinceTouched := now - last
  if window ≤ sinceTouched then (true, now, innerTouch q) else (false, last, q)

/-- One read in a sequence of reads of the same element: run `approxTouch`
against the accumulated timestamp and count whether it forwarded. -/
def approxCountStep (window : Nat) (acc : Nat × Nat) (t : Nat) : Nat × Nat :=
  let r := approxTouch id window acc.2 t ()
  (acc.1 + (if r.1 then 1 else 0), r.2.1)

/-- Fold `approxTouch` over a sequence of read instants, counting how many
reads forwarded a touch to the inner layer. -/
def approxTouchCount (window last0 : Nat) (times : List Nat) : Nat × Nat :=
  times.foldl (approxCountStep window) (0, last0)

/-- Wrap-around of an unsigned 64-bit quantity. -/
def u64 (n : Nat) : Nat := n % 2 ^ 64

/-- `u64::rotate_right(32)` for `h < 2^64`. -/
def rotateRight32 (h : Nat) : Nat := h % 2 ^ 32 * 2 ^ 32 + h / 2 ^ 32

/-- `SyncCache::hash_and_shard` from `sync.rs` (lines 433–438): one hasher
call, then `shard = hash ^ hash.rotate_right(u64::BITS / 2)` masked by
`shards - 1`.  The hasher is an external collaborator and is passed in as a
function whose results are `u64`s. -/
def syncHashAndShard (hashFn : Nat → Nat) (key : Nat) (mask : Nat) : Nat × Nat :=
  let hash := u64 (hashFn key)
  let shard := Nat.xor hash (rotateRight32 hash)
  (hash, Nat.land shard mask)

/-- `ShardedCache::hash_and_shard` from `sharded.rs` (lines 227–233): one
hasher call for the key, then a second hasher call on the hash itself,
masked by `shards - 1`. -/
def shardedHashAndShard (hashFn : Nat → Nat) (key : Nat) (mask : Nat) : Nat × Nat :=
  let hash := u64 (hashFn key)
  let shard := Nat.land (u64 (hashFn hash)) mask
  (hash, shard)

/-- The claimed shard-index formula, written from the spec's words:
`(h XOR h.rotate_right(WORD_BITS/2)) AND (shards - 1)`. -/
def specShardIndex (h mask : Nat) : Nat := Nat.land (Nat.xor h (rotateRight32 h)) mask

/-- `usize::div_ceil` as implemented for Rust unsigned integers. -/
def rustDivCeil (a b : Nat) : Nat := a / b + (if a % b > 0 then 1 else 0)

/-- The per-shard capacity computed by `SyncCacheBuilder::build_with_layer`
in `sync.rs` (lines 95–98): `capacity = self.capacity.unwrap_or(shards * 16)`
followed by `let capacity_per_shard = self.shards.div_ceil(capacity)`. -/
def syncCapacityPerShard (shards : Nat) (capacityOpt : Option Nat) : Nat :=
  let capacity := capacityOpt.getD (shards * 16)
  rustDivCeil shards capacity

/-- The per-shard capacity computed by `ShardedCacheBuilder::build` in
`sharded.rs` (lines 92–95); textually the same computation as in `sync.rs`. -/
def shardedCapacityPerShard (shards : Nat) (capacityOpt : Option Nat) : Nat :=
  let capacity := capacityOpt.getD (shards * 16)
  rustDivCeil shards capacity

/-- `SyncCache::get` from `sync.rs` (lines 320–371), `ReadLockOnly` branch,
for one shard.  The hash table is an external collaborator (`hashbrown`'s
`RawTable`), modelled from the spec as a table of pointers with unique keys:
lookup by key equality stands in for `get(hash, eq)`, and the re-location
after upgrading compares pointers by `Arc` identity (`idOf`).  The composed
layer `Ls` is passed in through its `read` and `remove` operations. -/
def syncGetReadLockOnly (keyOf idOf : P → Nat)
    (read : σ → P → ReadResult × σ) (remove : σ → P → σ)
    (k : Nat) (values : List P) (layer : σ) : Option P × List P × σ :=
  match values.find? (fun p => keyOf p == k) with
  | none => (none, values, layer) -- `?` on the table lookup
  | some pointer =>
    let r := read layer pointer
    match r.1 with
    | .Retain => (some pointer, values, r.2)
    | .Remove =>
      -- drop the read guard, take the write lock, re-locate by Arc identity
      match values.find? (fun q => idOf q == idOf pointer) with
      | none => (none, values, r.2) -- `?` on remove_entry: pointer already gone
      | some p' =>
        (some p', values.eraseP (fun q => idOf q == idOf pointer), remove r.2 p')

/-- A value carrying an `ExpireAt` deadline, as used through the
`ExpireAtCache` layer of `expire.rs` (`Instant`s are nanosecond `Nat`s). -/
structure ExpEntry where
  key : Nat
  expireAt : Nat
  deriving DecidableEq, Repr

/-- A value carrying an `Expire::is_expired` flag, as used through the
`ExpireCache` layer of `expire.rs`. -/
structure ExpFlagEntry where
  key : Nat
  expired : Bool
  deriving DecidableEq, Repr

/-- Modelled from the spec: the inner cache under an expiration layer (one
shard of the sharded store with no further layers).  Its `locked_entry` is
`Occupied` exactly when the key is present; the association list stands in
for the shard's hash table of unique-keyed pointers. -/
def cacheLookup (keyOf : α → Nat) (s : List α) (k : Nat) : Option α :=
  s.find? (fun e => keyOf e == k)

/-- Modelled from the spec: `LockedOccupiedEntry::remove` of the inner
cache — unlink the entry for the key from the shard's table. -/
def cacheRemoveKey (keyOf : α → Nat) (s : List α) (k : Nat) : List α :=
  s.eraseP (fun e => keyOf e == k)

/-- The locked read path of `ExpireAtCache` from `expire.rs`:
`locked_entry` (lines 207–231) forwards to the inner cache and, on a hit,
keeps the entry `Occupied` when `occupied.value().expire_at() >= clock.now()`
and otherwise wraps it as `Vacant(Expired(occupied))`; a caller reading the
key then drops that vacant entry, whose `Drop` (lines 97–108) calls
`occupied.remove()`.  Modelled from the spec: `get(k)` itself, which the
spec routes through the entry lookup (the source's `ExpireAtCache::entry`
body does not compile — it borrows a tuple field `self.0` that the struct
does not have — so the locked path above is the one embedded). -/
def expireAtLockedGet (now k : Nat) (s : List ExpEntry) : Option ExpEntry × List ExpEntry :=
  match cacheLookup ExpEntry.key s k with
  | some occupied =>
    if occupied.expireAt ≥ now then (some occupied, s)
    else (none, cacheRemoveKey ExpEntry.key s k)
  | none => (none, s)

/-- The locked read path of `ExpireCache` from `expire.rs` (lines 36–60):
on a hit the entry stays `Occupied` when `occupied.value().is_expired()`
and is wrapped as `Vacant(Expired(..))` — and hence removed on drop —
otherwise. -/
def expireLockedGet (k : Nat) (s : List ExpFlagEntry) : Option ExpFlagEntry × List ExpFlagEntry :=
  match cacheLookup ExpFlagEntry.key s k with
  | some occupied =>
    if occupied.expired then (some occupied, s)
    else (none, cacheRemoveKey ExpFlagEntry.key s k)
  | none => (none, s)

/-- The map/layer lockstep property after a composed write: the write
returned the freshly constructed pointer, the store-level visitor never hit
its "layer shard and map out of sync" panic, both layers retain exactly the
same pointer set, and that set is the map's pointer set plus the new
pointer (which the store inserts into the table right after the composed
write returns). -/
def LockstepAfterWrite (r : Nat × (SpecLriShard Nat × SpecLriShard Nat) × MapEnv)
    (newId : Nat) : Prop :=
  r.1 = newId ∧ r.2.2.panicked = false ∧
  r.2.1.1.q.toFinset = r.2.1.2.q.toFinset ∧
  r.2.1.1.q.toFinset = insert newId r.2.2.map.toFinset ∧
  newId ∉ r.2.2.map

/-- A concrete well-formed two-element `List<T>` state: slot 1 is the head
(`next = None`), slot 0 is the tail (`prev = None`, `next = 1`). -/
def c6ListExample : ListRs Nat :=
  { nodes := [{ state := .occupied 10 none (some 1), gen := 1 },
              { state := .occupied 20 (some 0) none, gen := 1 }],
    len := 2, head := some 1, tail := some 0, nextFree := none, cap := 2 }

/-- A concrete `List<T>` state whose only slot is vacant at generation 3
(the shape a slot has right after a removal, whose free-list key carries
the same generation). -/
def c6VacantExample : ListRs Nat :=
  { nodes := [{ state := .vacant none, gen := 3 }],
    len := 0, head := none, tail := none,
    nextFree := some { index := 0, gen := 3 }, cap := 1 }

/-- A concrete one-element `IndexList<T>` state. -/
def c6IndexListExample : IndexListRs Nat :=
  { nodes := [{ state := .occupied 7 none none, gen := 1 }],
    head := some 0, tail := some 0, len := 1, nextFree := none }

/-! ## Theorems -/

/-- C1.  With an entry of key `1` and deadline `t = 10` present, the
`ExpireAt` locked read path at wall-time exactly `t` keeps the entry
`Occupied` and returns it — `locked_entry` retains whenever
`expire_at() >= clock.now()`, i.e. it treats an entry as expired only when
`expire_at() < now`, not when `expire_at() <= now` as the claim states — so
`get` returns the pointer and `len` stays 1 instead of returning `None` and
shrinking.  Only at wall-time `> t` is the entry removed.  The sibling
boolean `Expire` layer is inverted outright: it retains entries whose
`is_expired()` is `true` and removes fresh ones. -/
theorem expireAt_get_at_deadline_returns_pointer :
    Cach.expireAtLockedGet 10 1 [{ key := 1, expireAt := 10 }] =
      (some { key := 1, expireAt := 10 }, [{ key := 1, expireAt := 10 }]) ∧
    Cach.expireAtLockedGet 11 1 [{ key := 1, expireAt := 10 }] = (none, []) ∧
    Cach.expireLockedGet 1 [{ key := 1, expired := true }] =
      (some { key := 1, expired := true }, [{ key := 1, expired := true }]) ∧
    Cach.expireLockedGet 1 [{ key := 1, expired := false }] = (none, []) := by
  decide

/-- C2.  Inserting two distinct keys into an `EvictLeastRecentlyInserted`
queue of capacity 1 evicts nothing: `List::push_tail_with_key` never
increments `len` and never sets `head`/`tail`, so the `len == capacity`
check in `push_tail_with_key_and_pop_if_full` never fires (`len` is stuck
at 0) and `pop_head` could never find a head anyway.  The claim (and the
spec scenario S1) expects the first key to be evicted. -/
theorem lri_insert_beyond_capacity_evicts_nothing :
    Cach.evictLriEvicted 1 [10, 20] = .ok [] ∧
    Cach.evictLriInsertAll 1 [10, 20] =
      .ok ([],
        { nodes := [{ state := .occupied 10 none none, gen := 1 },
                    { state := .occupied 20 none none, gen := 1 }],
          len := 0, head := none, tail := none, nextFree := none, cap := 1 }) ∧
    Cach.PanicOr.ok ([] : List Nat) ≠ .ok [10] := by
  decide

/-- C3.  Both builders compute `self.shards.div_ceil(capacity)` — the
arguments are reversed — so 16 shards with a total capacity of 1024 get a
per-shard capacity of `ceil(16/1024) = 1` instead of the claimed
`ceil(1024/16) = 64`. -/
theorem capacity_per_shard_args_reversed :
    Cach.syncCapacityPerShard 16 (some 1024) = 1 ∧
    Cach.shardedCapacityPerShard 16 (some 1024) = 1 ∧
    Cach.rustDivCeil 1024 16 = 64 ∧ (1 : Nat) ≠ 64 := by
  decide

/-- C4.  In the `ReadLockOnly` branch of `SyncCache::get`, when the layer
reports `Remove` the store does re-locate the pointer by identity after
upgrading and removes it from both the table and the layer shard — but it
then returns `Some(pointer)` (the value handed back by `remove_entry`),
not `None` as the claim states.  Here: one pointer with key 1 and identity
7, a layer (shard state = the identity set `[7]`) whose read reports
`Remove`; the call empties both the table and the layer shard yet returns
the pointer. -/
theorem sync_get_remove_path_returns_some :
    Cach.syncGetReadLockOnly Prod.fst Prod.snd
        (fun (s : List Nat) (_ : Nat × Nat) => (Cach.ReadResult.Remove, s))
        (fun s p => s.erase p.2) 1 [(1, 7)] [7] =
      (some (1, 7), [], []) ∧
    (some ((1, 7) : Nat × Nat) ≠ none) := by
  decide

/-- C5 counterexample.  With the identity hasher and key `2^32` on 2 shards
(`mask = 1`), `ShardedCache::hash_and_shard` yields shard 0, while the
claimed single-hash formula `(h XOR h.rotate_right(32)) AND mask` yields
shard 1: `sharded.rs` derives the shard by hashing the hash a second time
instead of the rotate-XOR. -/
theorem sharded_shard_index_differs_from_claim :
    (Cach.shardedHashAndShard (fun x => x) (2 ^ 32) 1).2 = 0 ∧
    Cach.specShardIndex (Cach.shardedHashAndShard (fun x => x) (2 ^ 32) 1).1 1 = 1 ∧
    (0 : Nat) ≠ 1 := by
  decide

/-- C5 (amended).  `SyncCache::hash_and_shard` computes a single hash `h`
and derives the shard index exactly as the claimed formula
`(h XOR h.rotate_right(32)) AND mask`, returning `h` itself as the
table-slot hash; `ShardedCache::hash_and_shard` also uses `h` as the
table-slot hash but derives the shard index by invoking the hasher a
second time on `h`: `hash(h) AND mask`. -/
theorem hash_and_shard_formulas :
    ∀ (hashFn : Nat → Nat) (key mask : Nat),
      Cach.syncHashAndShard hashFn key mask =
        (Cach.u64 (hashFn key), Cach.specShardIndex (Cach.u64 (hashFn key)) mask) ∧
      Cach.shardedHashAndShard hashFn key mask =
        (Cach.u64 (hashFn key),
          Nat.land (Cach.u64 (hashFn (Cach.u64 (hashFn key)))) mask) := by
  intro hashFn key mask
  exact ⟨rfl, rfl⟩

/-- C6 counterexample.  `IndexList::remove` `assert_eq!`s the key's
generation against the slot's, so a stale key (generation 2 against a slot
at generation 1) panics instead of returning `None`. -/
theorem index_list_remove_panics_on_stale_key :
    Cach.IndexListRs.remove
        { nodes := [{ state := .occupied (7 : Nat) none none, gen := 1 }],
          head := some 0, tail := some 0, len := 1, nextFree := none }
        { index := 0, gen := 2 } = .panic := by
  decide

/-- C7 counterexample.  With a 5ns window, a read whose elapsed time since
the last touch is exactly the window forwards the touch
(`since_touched >= self.window`), although `5 - 0` does not *exceed* the
window as the claim requires. -/
theorem approx_touch_forwards_at_exact_window :
    (Cach.approxTouch id 5 0 5 ()).1 = true ∧ ¬(5 - 0 > 5) := by
  decide

/-! ### Helper lemmas -/

theorem get?_some_lt {β : Type} {l : List β} {i : Nat} {e : β}
    (h : l.get? i = some e) : i < l.length := by
  by_contra hge
  rw [List.get?_eq_none.mpr (Nat.le_of_not_lt hge)] at h
  exact Option.noConfusion h

theorem approxCountStep_no_forward {w c last t : Nat} (h : t - last < w) :
    Cach.approxCountStep w (c, last) t = (c, last) := by
  simp [Cach.approxCountStep, Cach.approxTouch, Nat.not_le.mpr h]

theorem approxCountStep_forward {w c last t : Nat} (h : w ≤ t - last) :
    Cach.approxCountStep w (c, last) t = (c + 1, t) := by
  simp [Cach.approxCountStep, Cach.approxTouch, h]

theorem approxFold_no_forward {w c last : Nat} {ts : List Nat}
    (h : ∀ t ∈ ts, t - last < w) :
    ts.foldl (Cach.approxCountStep w) (c, last) = (c, last) := by
  induction ts with
  | nil => rfl
  | cons t ts ih =>
    rw [List.foldl_cons, approxCountStep_no_forward (h t (by simp))]
    exact ih fun t' ht' => h t' (by simp [ht'])

theorem approxFold_le_one (w : Nat) (ts : List Nat) :
    ∀ last, (∀ a ∈ ts, ∀ b ∈ ts, b - a < w) →
      (ts.foldl (Cach.approxCountStep w) (0, last)).1 ≤ 1 := by
  induction ts with
  | nil => intro last _; exact Nat.zero_le 1
  | cons t ts ih =>
    intro last hp
    rw [List.foldl_cons]
    by_cases hf : w ≤ t - last
    · rw [approxCountStep_forward hf,
        approxFold_no_forward fun b hb => hp t (by simp) b (by simp [hb])]
    · rw [approxCountStep_no_forward (Nat.not_le.mp hf)]
      exact ih last fun a ha b hb => hp a (by simp [ha]) b (by simp [hb])

namespace Bag

theorem wf_iff_wfP {α : Type} (b : Bag α) : b.wf = true ↔ WfP b := by
  constructor
  · intro h i e he
    have hlt : i < b.values.length := get?_some_lt he
    have := (List.all_eq_true.mp h) i (List.mem_range.mpr hlt)
    rw [he] at this
    exact of_decide_eq_true this
  · intro h
    refine List.all_eq_true.mpr fun i hi => ?_
    match hget : b.values.get? i with
    | some e => simpa [hget] using h i e hget
    | none =>
      have := List.get?_eq_none.mp hget
      exact absurd (List.mem_range.mp hi) (Nat.not_lt.mpr this)

theorem insertWithKey_wfP {α : Type} {b : Bag α} (payload : α) (h : WfP b) :
    WfP (b.insertWithKey fun k => (payload, k)) := by
  intro i e he
  simp only [insertWithKey] at he
  rcases Nat.lt_trichotomy i b.values.length with hlt | heq | hgt
  · rw [List.get?_append hlt] at he
    exact h i e he
  · subst heq
    rw [List.get?_concat_length] at he
    cases he
    rfl
  · have : b.values.length + 1 ≤ i := hgt
    rw [List.get?_eq_none.mpr (by simpa using this)] at he
    exact Option.noConfusion he

theorem doRemove_eq {α : Type} {b : Bag α} {i : Nat} (hi : i < b.values.length) :
    ∃ removed last,
      b.values.get? i = some removed ∧ b.values.getLast? = some last ∧
      b.doRemove i =
        .ok (removed,
          { values :=
              match (b.values.dropLast.set i last).get? i with
              | some moved => (b.values.dropLast.set i last).set i (moved.1, i)
              | none => b.values.dropLast.set i last }) := by
  cases hget : b.values.get? i with
  | none => exact absurd hi (Nat.not_lt.mpr (List.get?_eq_none.mp hget))
  | some removed =>
    cases hlast : b.values.getLast? with
    | none =>
      exfalso
      rw [List.getLast?_eq_get? ] at hlast
      have h1 := List.get?_eq_none.mp hlast
      omega
    | some last =>
      refine ⟨removed, last, rfl, rfl, ?_⟩
      simp only [doRemove, hget, hlast]

theorem doRemove_wfP {α : Type} {b : Bag α} {i : Nat} {removed : α × Nat} {b2 : Bag α}
    (hw : WfP b) (h : b.doRemove i = .ok (removed, b2)) : WfP b2 := by
  have hi : i < b.values.length := by
    by_contra hge
    rw [doRemove, List.get?_eq_none.mpr (Nat.le_of_not_lt hge)] at h
    exact PanicOr.noConfusion h
  obtain ⟨removed', last, hget, hlast, heq⟩ := doRemove_eq hi
  rw [heq] at h
  cases h
  intro j e he
  cases hX : (b.values.dropLast.set i last).get? i with
  | none =>
    simp only [hX] at he
    have hige : b.values.length - 1 ≤ i := by
      have := List.get?_eq_none.mp hX
      rwa [List.length_set, List.length_dropLast] at this
    by_cases hij : i = j
    · subst hij
      have := get?_some_lt he
      rw [List.length_set, List.length_dropLast] at this
      omega
    · rw [List.get?_set_ne _ _ hij] at he
      have hjlt : j < b.values.length - 1 := by
        have := get?_some_lt he
        rwa [List.length_dropLast] at this
      rw [List.dropLast_eq_take, List.get?_take hjlt] at he
      exact hw j e he
  | some moved =>
    simp only [hX] at he
    by_cases hij : i = j
    · subst hij
      have hilt : i < b.values.length - 1 := by
        have := get?_some_lt hX
        rwa [List.length_set, List.length_dropLast] at this
      rw [List.get?_set_eq_of_lt _
        (by simp only [List.length_set, List.length_dropLast]; exact hilt)] at he
      cases he
      rfl
    · rw [List.get?_set_ne _ _ hij, List.get?_set_ne _ _ hij] at he
      have hjlt : j < b.values.length - 1 := by
        have := get?_some_lt he
        rwa [List.length_dropLast] at this
      rw [List.dropLast_eq_take, List.get?_take hjlt] at he
      exact hw j e he

theorem step_wfP {α : Type} {b b' : Bag α} (op : BagOp α)
    (hw : WfP b) (h : b.step op = some b') : WfP b' := by
  cases op with
  | insert payload =>
    simp only [step] at h
    cases h
    exact insertWithKey_wfP payload hw
  | removeKey index =>
    simp only [step, removeByKey] at h
    match hr : b.doRemove index with
    | .panic => rw [hr] at h; exact Option.noConfusion h
    | .ok (r, b2) =>
      rw [hr] at h
      cases h
      exact doRemove_wfP hw hr
  | removeValue value =>
    simp only [step, removeByValue] at h
    match hr : b.doRemove value.2 with
    | .panic => rw [hr] at h; exact Option.noConfusion h
    | .ok (r, b2) =>
      rw [hr] at h
      cases h
      exact doRemove_wfP hw hr
  | pop randIndex =>
    simp only [step, pop] at h
    by_cases h0 : b.length = 0
    · simp only [h0, if_true] at h
      cases h
      exact hw
    · simp only [h0, if_false] at h
      by_cases hlt : randIndex < b.length
      · simp only [hlt, if_true] at h
        match hr : b.doRemove randIndex with
        | .panic => rw [hr] at h; exact Option.noConfusion h
        | .ok (r, b2) =>
          rw [hr] at h
          cases h
          exact doRemove_wfP hw hr
      · simp only [hlt, if_false] at h
        exact Option.noConfusion h

theorem run_wfP {α : Type} {b b' : Bag α} (ops : List (BagOp α))
    (hw : WfP b) (h : Bag.run b ops = some b') : WfP b' := by
  induction ops generalizing b with
  | nil => simp only [run] at h; cases h; exact hw
  | cons op ops ih =>
    simp only [run] at h
    match hs : b.step op with
    | none => rw [hs] at h; exact Option.noConfusion h
    | some b1 =>
      rw [hs] at h
      exact ih (step_wfP op hw hs) h

end Bag

/-! ### Claim theorems (with hypotheses) -/

/-- C7 (amended).  `EvictApproximate::touch` forwards the touch to the
inner eviction layer **iff** the elapsed time since the element's last
recorded touch is at least (`>=`, not strictly greater than) the configured
window — the compare-and-swap always succeeding in a single-threaded run —
and when it does not forward, neither the timestamp nor the inner queue
changes; consequently any sequence of reads of one element that all lie
within one window of each other produces at most one inner-layer touch. -/
theorem approx_touch_window_gate :
    (∀ {Q : Type} (innerTouch : Q → Q) (w last now : Nat) (q : Q),
      ((approxTouch innerTouch w last now q).1 = true ↔ w ≤ now - last) ∧
      (¬ w ≤ now - last → approxTouch innerTouch w last now q = (false, last, q))) ∧
    (∀ (w last0 : Nat) (times : List Nat),
      (∀ a ∈ times, ∀ b ∈ times, b - a < w) →
      (approxTouchCount w last0 times).1 ≤ 1) := by
  constructor
  · intro Q innerTouch w last now q
    constructor
    · by_cases h : w ≤ now - last <;> simp [approxTouch, h]
    · intro h
      simp [approxTouch, h]
  · intro w last0 times hp
    exact approxFold_le_one w times last0 hp

/-- Witness for C7: a read at elapsed time 7 against window 5 forwards; a
read at elapsed time 3 does not and leaves the timestamp and queue alone;
three reads within one 10ns window produce at most one inner touch. -/
theorem approx_touch_window_gate_witness :
    ((approxTouch id 5 0 7 ()).1 = true ↔ 5 ≤ 7 - 0) ∧
    approxTouch id 5 0 3 () = (false, 0, ()) ∧
    (approxTouchCount 10 0 [100, 103, 105]).1 ≤ 1 :=
  ⟨(approx_touch_window_gate.1 id 5 0 7 ()).1,
   (approx_touch_window_gate.1 id 5 0 3 ()).2 (by decide),
   approx_touch_window_gate.2 10 0 [100, 103, 105] (by decide)⟩

/-- C9.  The `Bag` preserves, across every panic-free sequence of
`insert_with_key` (with the canonical constructor that embeds the issued
key), `remove_by_key`, `remove_by_value` and random `pop` operations, the
invariant that the element at every position `i` carries back-index `i`;
and on every swap-remove at a position `i` that is not the last, the
element moved into the vacated slot (the old last element) has its key
updated to `i`. -/
theorem bag_back_index_invariant :
    (∀ {α : Type} (b : Bag α) (ops : List (Bag.BagOp α)) (b2 : Bag α),
      b.wf = true → Bag.run b ops = some b2 → b2.wf = true) ∧
    (∀ {α : Type} (b : Bag α) (i : Nat), i + 1 < b.values.length →
      ∃ removed pay k b2,
        b.doRemove i = .ok (removed, b2) ∧
        b.values.getLast? = some (pay, k) ∧
        b2.values.get? i = some (pay, i)) := by
  constructor
  · intro α b ops b2 hw hrun
    exact (Bag.wf_iff_wfP b2).mpr (Bag.run_wfP ops ((Bag.wf_iff_wfP b).mp hw) hrun)
  · intro α b i hi
    obtain ⟨removed, last, hget, hlast, heq⟩ := Bag.doRemove_eq (Nat.lt_of_succ_lt hi)
    have hilt : i < (b.values.dropLast.set i last).length := by
      simp only [List.length_set, List.length_dropLast]
      omega
    have hX : (b.values.dropLast.set i last).get? i = some last :=
      List.get?_set_eq_of_lt last (by simp only [List.length_dropLast]; omega)
    refine ⟨removed, last.1, last.2,
      { values := (b.values.dropLast.set i last).set i (last.1, i) }, ?_, hlast, ?_⟩
    · rw [heq]
      simp only [hX]
    · exact List.get?_set_eq_of_lt _ hilt

/-- Witness for C9: a concrete well-formed bag run through an insert, a
remove-by-key and a random pop keeps the invariant, and a concrete
swap-remove moves the last element into the vacated slot with its key
rewritten. -/
theorem bag_back_index_invariant_witness :
    Bag.wf { values := ([(200, 0)] : List (Nat × Nat)) } = true ∧
    (∃ removed pay k b2,
      Bag.doRemove { values := ([(100, 0), (200, 1), (300, 2)] : List (Nat × Nat)) } 0 =
        .ok (removed, b2) ∧
      ([(100, 0), (200, 1), (300, 2)] : List (Nat × Nat)).getLast? = some (pay, k) ∧
      b2.values.get? 0 = some (pay, 0)) :=
  ⟨bag_back_index_invariant.1 { values := [(100, 0), (200, 1)] }
      [.insert 300, .removeKey 0, .pop 0] { values := [(200, 0)] } (by decide) rfl,
   bag_back_index_invariant.2 { values := [(100, 0), (200, 1), (300, 2)] } 0 (by decide)⟩

/-- C6 (amended).  `List::remove` in `evict/list.rs` returns `None` and
leaves the list unchanged when the key addresses no slot or a slot whose
current generation differs from the key's; when the key addresses an
occupied slot with matching generation (and its neighbour links point at
distinct occupied slots other than the removed one, as the list invariant
guarantees), it returns the removed value, marks the slot vacant, bumps the
slot's generation, pushes the slot onto the free-list, and splices the
`prev`/`next` neighbours together (updating `head`/`tail` when the removed
slot had no `next`/`prev`).  However, contrary to the claim, a key that
addresses a *vacant* slot with matching generation makes `List::remove`
panic (`unreachable!`), and `IndexList::remove` in `evict/index.rs` panics
(`assert_eq!`) on any generation mismatch instead of returning `None`. -/
theorem list_remove_behaviour :
    (∀ {α : Type} (l : ListRs α) (key : LKey),
      (∀ node, l.nodes.get? key.index = some node → node.gen ≠ key.gen) →
      l.remove key = .ok (none, l)) ∧
    (∀ {α : Type} (l : ListRs α) (key : LKey) (nf : Option LKey),
      l.nodes.get? key.index = some { state := .vacant nf, gen := key.gen } →
      l.remove key = .panic) ∧
    (∀ {α : Type} (l : IndexListRs α) (key : LKey) (node : LNode α),
      l.nodes.get? key.index = some node → node.gen ≠ key.gen →
      l.remove key = .panic) ∧
    (∀ {α : Type} (l : ListRs α) (key : LKey) (v : α) (prev next : Option Nat),
      l.nodes.get? key.index = some { state := .occupied v prev next, gen := key.gen } →
      (∀ n, next = some n → n ≠ key.index ∧
        ∃ nv np nn ng, l.nodes.get? n = some { state := .occupied nv np nn, gen := ng }) →
      (∀ p, prev = some p → p ≠ key.index ∧ (∀ n, next = some n → p ≠ n) ∧
        ∃ pv pp pn pg, l.nodes.get? p = some { state := .occupied pv pp pn, gen := pg }) →
      ∃ l2, l.remove key = .ok (some v, l2) ∧
        l2.nextFree = some { index := key.index, gen := genIncrement key.gen } ∧
        l2.nodes.get? key.index =
          some { state := .vacant l.nextFree, gen := genIncrement key.gen } ∧
        l2.nodes.length = l.nodes.length ∧ l2.len = l.len ∧
        (next = none → l2.head = prev) ∧ (∀ n, next = some n → l2.head = l.head) ∧
        (prev = none → l2.tail = next) ∧ (∀ p, prev = some p → l2.tail = l.tail) ∧
        (∀ n nv np nn ng, next = some n →
          l.nodes.get? n = some { state := .occupied nv np nn, gen := ng } →
          l2.nodes.get? n = some { state := .occupied nv prev nn, gen := ng }) ∧
        (∀ p pv pp pn pg, prev = some p →
          l.nodes.get? p = some { state := .occupied pv pp pn, gen := pg } →
          l2.nodes.get? p = some { state := .occupied pv pp next, gen := pg })) := by
  refine ⟨?stale, ?vacantMatch, ?indexStale, ?success⟩
  case stale =>
    intro α l key h
    cases hget : l.nodes.get? key.index with
    | none => simp only [ListRs.remove, hget]
    | some node =>
      simp only [ListRs.remove, hget]
      rw [if_pos (h node hget)]
  case vacantMatch =>
    intro α l key nf hocc
    simp only [ListRs.remove, hocc, ne_eq, not_true_eq_false, if_false]
  case indexStale =>
    intro α l key node hget hne
    simp only [IndexListRs.remove, hget]
    rw [if_pos hne]
  case success =>
    intro α l key v prev next hocc hnext hprev
    have hlt : key.index < l.nodes.length := get?_some_lt hocc
    cases next with
    | none =>
      cases prev with
      | none =>
        refine ⟨{ l with
            nodes := l.nodes.set key.index
              { state := .vacant l.nextFree, gen := genIncrement key.gen },
            nextFree := some { index := key.index, gen := genIncrement key.gen },
            head := none, tail := none },
          ?_, rfl, ?_, by simp [List.length_set], rfl,
          fun _ => rfl, fun n h => Option.noConfusion h,
          fun _ => rfl, fun p h => Option.noConfusion h,
          fun n nv np nn ng h _ => Option.noConfusion h,
          fun p pv pp pn pg h _ => Option.noConfusion h⟩
        · simp only [ListRs.remove, hocc, ne_eq, not_true_eq_false, if_false,
            ListRs.pruneLink, ListRs.setPrevOfNext, ListRs.setNextOfPrev]
        · exact List.get?_set_eq_of_lt _ hlt
      | some p =>
        obtain ⟨hpk, -, pv, pp, pn, pg, hpocc⟩ := hprev p rfl
        have hplt : p < l.nodes.length := get?_some_lt hpocc
        have hp1 : (l.nodes.set key.index
            { state := .vacant l.nextFree, gen := genIncrement key.gen }).get? p =
            some { state := .occupied pv pp pn, gen := pg } := by
          rw [List.get?_set_ne _ _ (Ne.symm hpk)]
          exact hpocc
        refine ⟨{ l with
            nodes := (l.nodes.set key.index
                { state := .vacant l.nextFree, gen := genIncrement key.gen }).set p
              { state := .occupied pv pp none, gen := pg },
            nextFree := some { index := key.index, gen := genIncrement key.gen },
            head := some p },
          ?_, rfl, ?_, by simp [List.length_set], rfl,
          fun _ => rfl, fun n h => Option.noConfusion h,
          fun h => Option.noConfusion h, fun _ _ => rfl,
          fun n nv np nn ng h _ => Option.noConfusion h,
          ?_⟩
        · simp only [ListRs.remove, hocc, ne_eq, not_true_eq_false, if_false,
            ListRs.pruneLink, ListRs.setPrevOfNext, ListRs.setNextOfPrev, hp1]
        · rw [List.get?_set_ne _ _ hpk]
          exact List.get?_set_eq_of_lt _ hlt
        · intro p' pv' pp' pn' pg' hp' hocc'
          obtain rfl : p' = p := (Option.some.inj hp').symm
          rw [hpocc] at hocc'
          obtain ⟨h1, h2⟩ := LNode.mk.inj (Option.some.inj hocc')
          obtain ⟨e1, e2, e3⟩ := LNodeState.occupied.inj h1
          subst e1; subst e2; subst e3; subst h2
          exact List.get?_set_eq_of_lt _ (by simp only [List.length_set]; exact hplt)
    | some n =>
      obtain ⟨hnk, nv, np, nn, ng, hnocc⟩ := hnext n rfl
      have hnlt : n < l.nodes.length := get?_some_lt hnocc
      have hn1 : (l.nodes.set key.index
          { state := .vacant l.nextFree, gen := genIncrement key.gen }).get? n =
          some { state := .occupied nv np nn, gen := ng } := by
        rw [List.get?_set_ne _ _ (Ne.symm hnk)]
        exact hnocc
      cases prev with
      | none =>
        refine ⟨{ l with
            nodes := (l.nodes.set key.index
                { state := .vacant l.nextFree, gen := genIncrement key.gen }).set n
              { state := .occupied nv none nn, gen := ng },
            nextFree := some { index := key.index, gen := genIncrement key.gen },
            tail := some n },
          ?_, rfl, ?_, by simp [List.length_set], rfl,
          fun h => Option.noConfusion h, fun _ _ => rfl,
          fun _ => rfl, fun p h => Option.noConfusion h,
          ?_,
          fun p pv pp pn pg h _ => Option.noConfusion h⟩
        · simp only [ListRs.remove, hocc, ne_eq, not_true_eq_false, if_false,
            ListRs.pruneLink, ListRs.setPrevOfNext, ListRs.setNextOfPrev, hn1]
        · rw [List.get?_set_ne _ _ hnk]
          exact List.get?_set_eq_of_lt _ hlt
        · intro n' nv' np' nn' ng' hn' hocc'
          obtain rfl : n' = n := (Option.some.inj hn').symm
          rw [hnocc] at hocc'
          obtain ⟨h1, h2⟩ := LNode.mk.inj (Option.some.inj hocc')
          obtain ⟨e1, e2, e3⟩ := LNodeState.occupied.inj h1
          subst e1; subst e2; subst e3; subst h2
          exact List.get?_set_eq_of_lt _ (by simp only [List.length_set]; exact hnlt)
      | some p =>
        obtain ⟨hpk, hpn', pv, pp, pn, pg, hpocc⟩ := hprev p rfl
        have hpn : p ≠ n := hpn' n rfl
        have hplt : p < l.nodes.length := get?_some_lt hpocc
        have hp2 : ((l.nodes.set key.index
            { state := .vacant l.nextFree, gen := genIncrement key.gen }).set n
              { state := .occupied nv (some p) nn, gen := ng }).get? p =
            some { state := .occupied pv pp pn, gen := pg } := by
          rw [List.get?_set_ne _ _ (Ne.symm hpn), List.get?_set_ne _ _ (Ne.symm hpk)]
          exact hpocc
        refine ⟨{ l with
            nodes := ((l.nodes.set key.index
                { state := .vacant l.nextFree, gen := genIncrement key.gen }).set n
                  { state := .occupied nv (some p) nn, gen := ng }).set p
              { state := .occupied pv pp (some n), gen := pg },
            nextFree := some { index := key.index, gen := genIncrement key.gen } },
          ?_, rfl, ?_, by simp [List.length_set], rfl,
          fun h => Option.noConfusion h, fun _ _ => rfl,
          fun h => Option.noConfusion h, fun _ _ => rfl,
          ?_, ?_⟩
        · simp only [ListRs.remove, hocc, ne_eq, not_true_eq_false, if_false,
            ListRs.pruneLink, ListRs.setPrevOfNext, ListRs.setNextOfPrev, hn1, hp2]
        · rw [List.get?_set_ne _ _ hpk, List.get?_set_ne _ _ hnk]
          exact List.get?_set_eq_of_lt _ hlt
        · intro n' nv' np' nn' ng' hn' hocc'
          obtain rfl : n' = n := (Option.some.inj hn').symm
          rw [hnocc] at hocc'
          obtain ⟨h1, h2⟩ := LNode.mk.inj (Option.some.inj hocc')
          obtain ⟨e1, e2, e3⟩ := LNodeState.occupied.inj h1
          subst e1; subst e2; subst e3; subst h2
          rw [List.get?_set_ne _ _ hpn]
          exact List.get?_set_eq_of_lt _ (by simp only [List.length_set]; exact hnlt)
        · intro p' pv' pp' pn' pg' hp' hocc'
          obtain rfl : p' = p := (Option.some.inj hp').symm
          rw [hpocc] at hocc'
          obtain ⟨h1, h2⟩ := LNode.mk.inj (Option.some.inj hocc')
          obtain ⟨e1, e2, e3⟩ := LNodeState.occupied.inj h1
          subst e1; subst e2; subst e3; subst h2
          exact List.get?_set_eq_of_lt _ (by simp only [List.length_set]; exact hplt)

/-- Witness for C6: on the concrete two-element list, a stale key returns
`None` unchanged; a vacant slot with matching generation panics; the
`IndexList` panics on a stale key; and removing the tail succeeds with the
slot vacated, the generation bumped, the free-list updated and the
neighbour relinked. -/
theorem list_remove_behaviour_witness :
    ListRs.remove c6ListExample { index := 0, gen := 5 } = .ok (none, c6ListExample) ∧
    ListRs.remove c6VacantExample { index := 0, gen := 3 } = .panic ∧
    IndexListRs.remove c6IndexListExample { index := 0, gen := 3 } = .panic ∧
    (∃ l2, ListRs.remove c6ListExample { index := 0, gen := 1 } = .ok (some 10, l2) ∧
      l2.nextFree = some { index := 0, gen := genIncrement 1 } ∧
      l2.nodes.get? 0 = some { state := .vacant none, gen := genIncrement 1 } ∧
      l2.nodes.length = c6ListExample.nodes.length ∧ l2.len = c6ListExample.len ∧
      ((some 1 : Option Nat) = none → l2.head = none) ∧
      (∀ n, (some 1 : Option Nat) = some n → l2.head = c6ListExample.head) ∧
      ((none : Option Nat) = none → l2.tail = some 1) ∧
      (∀ p, (none : Option Nat) = some p → l2.tail = c6ListExample.tail) ∧
      (∀ n nv np nn ng, (some 1 : Option Nat) = some n →
        c6ListExample.nodes.get? n = some { state := .occupied nv np nn, gen := ng } →
        l2.nodes.get? n = some { state := .occupied nv none nn, gen := ng }) ∧
      (∀ p pv pp pn pg, (none : Option Nat) = some p →
        c6ListExample.nodes.get? p = some { state := .occupied pv pp pn, gen := pg } →
        l2.nodes.get? p = some { state := .occupied pv pp (some 1), gen := pg })) := by
  refine ⟨?_, ?_, ?_, ?_⟩
  · refine list_remove_behaviour.1 c6ListExample { index := 0, gen := 5 } ?_
    intro node h
    simp only [c6ListExample] at h
    cases h
    decide
  · exact list_remove_behaviour.2.1 c6VacantExample { index := 0, gen := 3 } none rfl
  · exact list_remove_behaviour.2.2.1 c6IndexListExample { index := 0, gen := 3 }
      { state := .occupied 7 none none, gen := 1 } rfl (by decide)
  · exact list_remove_behaviour.2.2.2 c6ListExample { index := 0, gen := 1 } 10 none (some 1)
      rfl
      (fun n h => by
        cases h
        exact ⟨by decide, 20, some 0, none, 1, rfl⟩)
      (fun p h => Option.noConfusion h)

theorem toFinset_filter_ne (l : List Nat) (a : Nat) :
    (l.filter (fun x => x ≠ a)).toFinset = l.toFinset.erase a := by
  ext x
  simp only [List.mem_toFinset, List.mem_filter, Finset.mem_erase, decide_eq_true_eq]
  exact and_comm

theorem toFinset_erase_nodup (l : List Nat) (a : Nat) (h : l.Nodup) :
    (l.erase a).toFinset = l.toFinset.erase a := by
  ext x
  simp only [List.mem_toFinset, Finset.mem_erase, h.mem_erase_iff]

theorem toFinset_append_singleton (l : List Nat) (a : Nat) :
    (l ++ [a]).toFinset = insert a l.toFinset := by
  ext x
  simp only [List.mem_toFinset, List.mem_append, List.mem_singleton, Finset.mem_insert]
  exact or_comm

theorem toFinset_tail_of_cons (a : Nat) (l : List Nat) (h : (a :: l).Nodup) :
    l.toFinset = (a :: l).toFinset.erase a := by
  have ha : a ∉ l := (List.nodup_cons.mp h).1
  ext x
  simp only [List.mem_toFinset, Finset.mem_erase, List.mem_cons]
  constructor
  · intro hx
    exact ⟨fun he => ha (he ▸ hx), Or.inr hx⟩
  · rintro ⟨hne, hx | hx⟩
    · exact absurd hx hne
    · exact hx

theorem filter_append_singleton_ne (l : List Nat) (a b : Nat) (h : b ≠ a) :
    (l ++ [b]).filter (fun x => x ≠ a) = l.filter (fun x => x ≠ a) ++ [b] := by
  rw [List.filter_append]
  simp [h]

theorem c8_sets (qa1 qb1 map1 : List Nat) (newId : Nat) (M : Finset Nat)
    (h1 : qa1.toFinset = M) (h2 : qb1.toFinset = M) (h3 : map1.toFinset = M)
    (hnid : newId ∉ M) :
    (qa1 ++ [newId]).toFinset = (qb1 ++ [newId]).toFinset ∧
    (qa1 ++ [newId]).toFinset = insert newId map1.toFinset ∧
    newId ∉ map1 := by
  refine ⟨?_, ?_, fun hmem => hnid (h3 ▸ List.mem_toFinset.mpr hmem)⟩
  · rw [toFinset_append_singleton, toFinset_append_singleton, h1, h2]
  · rw [toFinset_append_singleton, h1, h3]

/-- C8.  A composed (`AndThen`) write over two spec-modelled LRI layers and
the store-level visitor of `sync.rs`: every pointer the nested (first)
layer removes through the write visitor is recorded in `removed_by_a` and
replayed against the second layer's `remove` after the composed write
returns, while pointers the second layer removes are forwarded to the
first layer directly — so starting from layer shards and map holding the
same pointer set, after any composed write both layer shards again hold
exactly the same pointer set, namely the map's set plus the newly written
pointer, and the visitor's "layer shard and map out of sync" `expect`
never fires. -/
theorem andThen_write_replay_lockstep :
    ∀ (qa qb map : List Nat) (capA capB newId : Nat),
      qa.Nodup → qb.Nodup → map.Nodup →
      qa.toFinset = map.toFinset → qb.toFinset = map.toFinset →
      newId ∉ map →
      LockstepAfterWrite
        (andThenLriWrite { q := qa, cap := capA } { q := qb, cap := capB } map newId)
        newId := by
  intro qa qb map capA capB newId hna hnb hnm hea heb hnid
  have hnidM : newId ∉ map.toFinset := fun h => hnid (List.mem_toFinset.mp h)
  cases qb with
  | nil =>
    have hm0 : map.toFinset = ∅ := by rw [← heb]; rfl
    have hmap : map = [] := (List.toFinset_eq_empty_iff map).mp hm0
    have hqa : qa = [] := (List.toFinset_eq_empty_iff qa).mp (by rw [hea, hm0])
    subst hmap
    subst hqa
    simp only [LockstepAfterWrite, andThenLriWrite, andThenWrite, specLriImpl, mapWriter,
      ite_self, List.nil_append, List.foldl_nil]
    refine ⟨by trivial, by trivial, by trivial, ?_, by simp⟩
    simp
  | cons vb restB =>
    have hvbM : vb ∈ map :=
      List.mem_toFinset.mp (heb ▸ List.mem_toFinset.mpr (List.mem_cons_self vb restB))
    by_cases hb : (vb :: restB).length = capB
    · have hrest : restB.toFinset = map.toFinset.erase vb := by
        rw [toFinset_tail_of_cons vb restB hnb, heb]
      have hnidvb : newId ∉ map.toFinset.erase vb :=
        fun h => hnidM (Finset.mem_of_mem_erase h)
      by_cases ha : (qa.filter (fun x => x ≠ vb)).length = capA
      · cases hfa : qa.filter (fun x => x ≠ vb) with
        | nil =>
          rw [hfa] at ha
          have hFset : map.toFinset.erase vb = ∅ := by
            rw [← hea, ← toFinset_filter_ne qa vb, hfa]
            rfl
          simp only [LockstepAfterWrite, andThenLriWrite, andThenWrite, specLriImpl,
            mapWriter, hb, if_true, hvbM, hfa, ite_self, eq_self_iff_true,
            List.foldl_nil, List.nil_append]
          obtain ⟨h3, h4, h5⟩ := c8_sets [] restB (map.erase vb) newId
            (map.toFinset.erase vb) (by rw [hFset]; rfl) hrest
            (toFinset_erase_nodup map vb hnm) hnidvb
          exact ⟨by trivial, by trivial, h3, h4, h5⟩
        | cons va restA =>
          rw [hfa] at ha
          have hFnodup : (va :: restA).Nodup := hfa ▸ hna.filter _
          have hvaF : va ∈ qa.filter (fun x => x ≠ vb) := by
            rw [hfa]
            exact List.mem_cons_self va restA
          obtain ⟨hvaqa, hvavb'⟩ := List.mem_filter.mp hvaF
          have hvavb : va ≠ vb := of_decide_eq_true hvavb'
          have hvaM : va ∈ map := List.mem_toFinset.mp (hea ▸ List.mem_toFinset.mpr hvaqa)
          have hva : va ∈ map.erase vb := (List.mem_erase_of_ne hvavb).mpr hvaM
          have hnidva : newId ≠ va := fun h => hnid (h ▸ hvaM)
          simp only [LockstepAfterWrite, andThenLriWrite, andThenWrite, specLriImpl,
            mapWriter, hb, if_true, hvbM, hfa, ha, eq_self_iff_true, hva,
            List.foldl_nil, List.foldl_cons, List.nil_append]
          refine ⟨by trivial, by trivial, ?_, ?_, ?_⟩
          case _ =>
            rw [filter_append_singleton_ne restB va newId hnidva]
            refine (c8_sets restA (restB.filter (fun x => x ≠ va))
              ((map.erase vb).erase va) newId ((map.toFinset.erase vb).erase va)
              ?_ ?_ ?_ ?_).1
            · rw [toFinset_tail_of_cons va restA hFnodup, ← hfa, toFinset_filter_ne, hea]
            · rw [toFinset_filter_ne, hrest]
            · rw [toFinset_erase_nodup _ va (hnm.erase vb), toFinset_erase_nodup map vb hnm]
            · exact fun h => hnidvb (Finset.mem_of_mem_erase h)
          case _ =>
            refine (c8_sets restA (restB.filter (fun x => x ≠ va))
              ((map.erase vb).erase va) newId ((map.toFinset.erase vb).erase va)
              ?_ ?_ ?_ ?_).2.1
            · rw [toFinset_tail_of_cons va restA hFnodup, ← hfa, toFinset_filter_ne, hea]
            · rw [toFinset_filter_ne, hrest]
            · rw [toFinset_erase_nodup _ va (hnm.erase vb), toFinset_erase_nodup map vb hnm]
            · exact fun h => hnidvb (Finset.mem_of_mem_erase h)
          case _ =>
            refine (c8_sets restA (restB.filter (fun x => x ≠ va))
              ((map.erase vb).erase va) newId ((map.toFinset.erase vb).erase va)
              ?_ ?_ ?_ ?_).2.2
            · rw [toFinset_tail_of_cons va restA hFnodup, ← hfa, toFinset_filter_ne, hea]
            · rw [toFinset_filter_ne, hrest]
            · rw [toFinset_erase_nodup _ va (hnm.erase vb), toFinset_erase_nodup map vb hnm]
            · exact fun h => hnidvb (Finset.mem_of_mem_erase h)
      · simp only [LockstepAfterWrite, andThenLriWrite, andThenWrite, specLriImpl,
          mapWriter, hb, if_true, hvbM, ha, if_false, eq_self_iff_true,
          List.foldl_nil, List.nil_append]
        obtain ⟨h3, h4, h5⟩ := c8_sets (qa.filter (fun x => x ≠ vb)) restB (map.erase vb)
          newId (map.toFinset.erase vb) (by rw [toFinset_filter_ne, hea]) hrest
          (toFinset_erase_nodup map vb hnm) hnidvb
        exact ⟨by trivial, by trivial, h3, h4, h5⟩
    · by_cases ha : qa.length = capA
      · cases qa with
        | nil =>
          simp only [LockstepAfterWrite, andThenLriWrite, andThenWrite, specLriImpl,
            mapWriter, hb, if_false, ite_self, List.foldl_nil, List.nil_append]
          obtain ⟨h3, h4, h5⟩ := c8_sets [] (vb :: restB) map newId map.toFinset
            hea heb rfl hnidM
          exact ⟨by trivial, by trivial, h3, h4, h5⟩
        | cons va restA =>
          have hvaM : va ∈ map :=
            List.mem_toFinset.mp (hea ▸ List.mem_toFinset.mpr (List.mem_cons_self va restA))
          have hnidva : newId ≠ va := fun h => hnid (h ▸ hvaM)
          have hnidMva : newId ∉ map.toFinset.erase va :=
            fun h => hnidM (Finset.mem_of_mem_erase h)
          simp only [LockstepAfterWrite, andThenLriWrite, andThenWrite, specLriImpl,
            mapWriter, hb, if_false, ha, if_true, hvaM, eq_self_iff_true,
            List.foldl_nil, List.foldl_cons, List.nil_append]
          refine ⟨by trivial, by trivial, ?_, ?_, ?_⟩
          case _ =>
            rw [filter_append_singleton_ne (vb :: restB) va newId hnidva]
            refine (c8_sets restA ((vb :: restB).filter (fun x => x ≠ va))
              (map.erase va) newId (map.toFinset.erase va) ?_ ?_ ?_ hnidMva).1
            · rw [toFinset_tail_of_cons va restA hna, hea]
            · rw [toFinset_filter_ne, heb]
            · exact toFinset_erase_nodup map va hnm
          case _ =>
            refine (c8_sets restA ((vb :: restB).filter (fun x => x ≠ va))
              (map.erase va) newId (map.toFinset.erase va) ?_ ?_ ?_ hnidMva).2.1
            · rw [toFinset_tail_of_cons va restA hna, hea]
            · rw [toFinset_filter_ne, heb]
            · exact toFinset_erase_nodup map va hnm
          case _ =>
            refine (c8_sets restA ((vb :: restB).filter (fun x => x ≠ va))
              (map.erase va) newId (map.toFinset.erase va) ?_ ?_ ?_ hnidMva).2.2
            · rw [toFinset_tail_of_cons va restA hna, hea]
            · rw [toFinset_filter_ne, heb]
            · exact toFinset_erase_nodup map va hnm
      · simp only [LockstepAfterWrite, andThenLriWrite, andThenWrite, specLriImpl,
          mapWriter, hb, if_false, ha, List.foldl_nil]
        obtain ⟨h3, h4, h5⟩ := c8_sets qa (vb :: restB) map newId map.toFinset
          hea heb rfl hnidM
        exact ⟨by trivial, by trivial, h3, h4, h5⟩

/-- Witness for C8: two full LRI layers of capacity 1 over a one-pointer
map; writing pointer 7 evicts pointer 5 from both layers and the map, and
the lockstep property holds. -/
theorem andThen_write_replay_lockstep_witness :
    LockstepAfterWrite
      (andThenLriWrite { q := [5], cap := 1 } { q := [5], cap := 1 } [5] 7) 7 :=
  andThen_write_replay_lockstep [5] [5] [5] 1 1 7 (by decide) (by decide) (by decide)
    rfl rfl (by decide)

/-- C10.  In `AndThenShard`, whenever the first layer's `read` (or
`iter_read`) reports `Remove`, the composed `read` (resp. `iter_read`)
reports `Remove` and the second layer's read is never invoked: the result
is the same for every possible second-layer read, and the second layer's
shard state is returned unchanged. -/
theorem andThen_read_remove_short_circuits :
    (∀ {σA σB P : Type} (readA : σA → P → ReadResult × σA)
      (readB : σB → P → ReadResult × σB) (sa : σA) (sb : σB) (p : P) (sa2 : σA),
      readA sa p = (.Remove, sa2) →
      andThenRead readA readB sa sb p = (.Remove, (sa2, sb))) ∧
    (∀ {σA σB P : Type} (iterReadA : σA → P → ReadResult × σA)
      (iterReadB : σB → P → ReadResult × σB) (sa : σA) (sb : σB) (p : P) (sa2 : σA),
      iterReadA sa p = (.Remove, sa2) →
      andThenIterRead iterReadA iterReadB sa sb p = (.Remove, (sa2, sb))) := by
  constructor
  · intro σA σB P readA readB sa sb p sa2 h
    simp [andThenRead, h]
  · intro σA σB P iterReadA iterReadB sa sb p sa2 h
    simp [andThenIterRead, h]

/-- Witness for C10: with a first layer that removes (bumping its state
from 0 to 1) and a second layer whose read would bump its state by 99, the
composed read removes and leaves the second layer's state at 0. -/
theorem andThen_read_remove_short_circuits_witness :
    andThenRead (fun (s : Nat) (_ : Nat) => (ReadResult.Remove, s + 1))
        (fun (s : Nat) (_ : Nat) => (ReadResult.Retain, s + 99)) 0 0 0 =
      (ReadResult.Remove, (1, 0)) ∧
    andThenIterRead (fun (s : Nat) (_ : Nat) => (ReadResult.Remove, s + 1))
        (fun (s : Nat) (_ : Nat) => (ReadResult.Retain, s + 99)) 0 0 0 =
      (ReadResult.Remove, (1, 0)) :=
  ⟨andThen_read_remove_short_circuits.1 _ _ 0 0 0 1 rfl,
   andThen_read_remove_short_circuits.2 _ _ 0 0 0 1 rfl⟩

end Cach
